import Mathlib

/-!
# Writer's Coach revision core: shallow embedding and verification

The repository under verification documents (src/README.md) a text-revision
pipeline: a Guardrail Classifier, a Lock Extractor, a Metrics Engine, a Diff
Engine and a Revision Orchestrator.  The repository snapshot contains only the
documentation, build scaffolding and CI configuration; the component
implementations themselves are not present under src/.  Each component is
therefore modelled here from the specification text, as indicated by the
`Modelled from the spec:` doc comments, and the claims are settled against
these models.

Texts are embedded as `List Char`, token sequences as `List String`, and all
real-valued metrics as exact rationals (`ℚ`).
-/

set_option maxHeartbeats 1000000

/-! ## Diff Engine (spec §4.5, §3 DiffOp) -/

/-- Modelled from the spec: the kind of a diff operation, §3
(`kind ∈ \x7bEqual, Insert, Delete\x7d`).  The Diff Engine implementation is
missing from src/. -/
inductive DiffKind where
  | Equal
  | Insert
  | Delete
deriving DecidableEq, Repr

/-- Modelled from the spec: a diff operation carrying an ordered sequence of
word tokens (§3 DiffOp). -/
structure DiffOp where
  kind : DiffKind
  tokens : List String
deriving DecidableEq, Repr

/-- Push one token of kind `k` onto the front of an edit script, merging with
the leading operation when it has the same kind. -/
def pushOp (k : DiffKind) (t : String) : List DiffOp → List DiffOp
  | [] => [⟨k, [t]⟩]
  | op :: rest => if op.kind = k then ⟨k, t :: op.tokens⟩ :: rest else ⟨k, [t]⟩ :: op :: rest

/-- Modelled from the spec: length of a longest common subsequence of two
token sequences (§4.5 "minimal-edit alignment (longest-common-subsequence
based)").  The Diff Engine implementation is missing from src/. -/
def lcsLen : List String → List String → Nat
  | [], _ => 0
  | _ :: _, [] => 0
  | x :: xs, y :: ys =>
    if x = y then lcsLen xs ys + 1
    else max (lcsLen xs (y :: ys)) (lcsLen (x :: xs) ys)
termination_by xs ys => xs.length + ys.length

/-- Modelled from the spec: the Diff Engine, §4.5.  `diff` computes an
LCS-based minimal edit script at word-token granularity; equal heads are taken
as `Equal` first, which realises the documented tie-break of preferring
`Equal` over `Insert`/`Delete` at the earliest possible position.  The
implementation is missing from src/. -/
def diff : List String → List String → List DiffOp
  | [], [] => []
  | [], y :: ys => pushOp .Insert y (diff [] ys)
  | x :: xs, [] => pushOp .Delete x (diff xs [])
  | x :: xs, y :: ys =>
    if x = y then pushOp .Equal x (diff xs ys)
    else if lcsLen (x :: xs) ys ≤ lcsLen xs (y :: ys) then
      pushOp .Delete x (diff xs (y :: ys))
    else
      pushOp .Insert y (diff (x :: xs) ys)
termination_by xs ys => xs.length + ys.length

/-- Tokens of the `Equal` and `Insert` operations of a script, concatenated in
order (spec §3: reconstructs the revised text). -/
def reconRevised : List DiffOp → List String
  | [] => []
  | op :: rest =>
    (if op.kind = .Equal ∨ op.kind = .Insert then op.tokens else []) ++ reconRevised rest

/-- Tokens of the `Equal` and `Delete` operations of a script, concatenated in
order (spec §3: reconstructs the original text). -/
def reconOriginal : List DiffOp → List String
  | [] => []
  | op :: rest =>
    (if op.kind = .Equal ∨ op.kind = .Delete then op.tokens else []) ++ reconOriginal rest

/-- Tokens of the `Equal` operations of a script, concatenated in order. -/
def equalTokens : List DiffOp → List String
  | [] => []
  | op :: rest => (if op.kind = .Equal then op.tokens else []) ++ equalTokens rest

lemma reconRevised_pushOp (k : DiffKind) (t : String) (ops : List DiffOp) :
    reconRevised (pushOp k t ops) =
      (if k = .Equal ∨ k = .Insert then [t] else []) ++ reconRevised ops := by
  cases ops with
  | nil => cases k <;> simp [pushOp, reconRevised]
  | cons op rest =>
    by_cases h : op.kind = k
    · cases k <;> simp [pushOp, reconRevised, h]
    · cases k <;> simp [pushOp, reconRevised, h]

lemma reconOriginal_pushOp (k : DiffKind) (t : String) (ops : List DiffOp) :
    reconOriginal (pushOp k t ops) =
      (if k = .Equal ∨ k = .Delete then [t] else []) ++ reconOriginal ops := by
  cases ops with
  | nil => cases k <;> simp [pushOp, reconOriginal]
  | cons op rest =>
    by_cases h : op.kind = k
    · cases k <;> simp [pushOp, reconOriginal, h]
    · cases k <;> simp [pushOp, reconOriginal, h]

lemma equalTokens_pushOp (k : DiffKind) (t : String) (ops : List DiffOp) :
    equalTokens (pushOp k t ops) =
      (if k = .Equal then [t] else []) ++ equalTokens ops := by
  cases ops with
  | nil => cases k <;> simp [pushOp, equalTokens]
  | cons op rest =>
    by_cases h : op.kind = k
    · cases k <;> simp [pushOp, equalTokens, h]
    · cases k <;> simp [pushOp, equalTokens, h]

theorem diff_recon : ∀ (xs ys : List String),
    reconOriginal (diff xs ys) = xs ∧ reconRevised (diff xs ys) = ys
  | [], [] => by simp [diff, reconOriginal, reconRevised]
  | [], y :: ys => by
    have ih := diff_recon [] ys
    simp [diff, reconOriginal_pushOp, reconRevised_pushOp, ih.1, ih.2]
  | x :: xs, [] => by
    have ih := diff_recon xs []
    simp [diff, reconOriginal_pushOp, reconRevised_pushOp, ih.1, ih.2]
  | x :: xs, y :: ys => by
    by_cases hxy : x = y
    · have ih := diff_recon xs ys
      subst hxy
      simp [diff, reconOriginal_pushOp, reconRevised_pushOp, ih.1, ih.2]
    · by_cases hc : lcsLen (x :: xs) ys ≤ lcsLen xs (y :: ys)
      · have ih := diff_recon xs (y :: ys)
        simp [diff, hxy, hc, reconOriginal_pushOp, reconRevised_pushOp, ih.1, ih.2]
      · have ih := diff_recon (x :: xs) ys
        simp [diff, hxy, hc, reconOriginal_pushOp, reconRevised_pushOp, ih.1, ih.2]
termination_by xs ys => xs.length + ys.length

/-- Claim C4: for any pair of token sequences, concatenating in order the tokens of
the `Equal` and `Insert` operations of `diff originalTokens revisedTokens`
yields exactly `revisedTokens`, and concatenating in order the tokens of the
`Equal` and `Delete` operations yields exactly `originalTokens` (spec §3
reconstruction invariant, §8 round-trip property). -/
theorem diff_reconstruction_roundtrip (originalTokens revisedTokens : List String) :
    reconRevised (diff originalTokens revisedTokens) = revisedTokens ∧
    reconOriginal (diff originalTokens revisedTokens) = originalTokens :=
  ⟨(diff_recon originalTokens revisedTokens).2, (diff_recon originalTokens revisedTokens).1⟩

/-! ### LCS optimality of the edit script (C5) -/

lemma lcsLen_cons_eq (x : String) (xs ys : List String) :
    lcsLen (x :: xs) (x :: ys) = lcsLen xs ys + 1 := by
  simp [lcsLen]

lemma lcsLen_cons_ne (x y : String) (xs ys : List String) (h : x ≠ y) :
    lcsLen (x :: xs) (y :: ys) = max (lcsLen xs (y :: ys)) (lcsLen (x :: xs) ys) := by
  simp [lcsLen, h]

lemma length_le_lcsLen : ∀ (xs ys zs : List String),
    List.Sublist zs xs → List.Sublist zs ys → zs.length ≤ lcsLen xs ys
  | _, _, [] => fun _ _ => Nat.zero_le _
  | [], _, z :: zs => fun h _ => absurd h (by simp)
  | _ :: _, [], z :: zs => fun _ h => absurd h (by simp)
  | x :: xs, y :: ys, z :: zs => fun hx hy => by
    rcases List.sublist_cons_iff.mp hx with hx' | ⟨rx, hzx, hx'⟩ <;>
      rcases List.sublist_cons_iff.mp hy with hy' | ⟨ry, hzy, hy'⟩
    · by_cases hxy : x = y
      · have h1 : (z :: zs).length ≤ lcsLen xs ys := length_le_lcsLen xs ys (z :: zs) hx' hy'
        subst hxy
        rw [lcsLen_cons_eq]
        omega
      · have h1 : (z :: zs).length ≤ lcsLen xs (y :: ys) :=
          length_le_lcsLen xs (y :: ys) (z :: zs) hx' hy
        rw [lcsLen_cons_ne x y xs ys hxy]
        omega
    · by_cases hxy : x = y
      · have hzs : zs.Sublist xs := (List.sublist_cons_self z zs).trans hx'
        have hzy2 : zs.Sublist ys := by
          cases hzy; exact hy'
        have h1 : zs.length ≤ lcsLen xs ys := length_le_lcsLen xs ys zs hzs hzy2
        subst hxy
        rw [lcsLen_cons_eq]
        simp only [List.length_cons]
        omega
      · have h1 : (z :: zs).length ≤ lcsLen xs (y :: ys) :=
          length_le_lcsLen xs (y :: ys) (z :: zs) hx' hy
        rw [lcsLen_cons_ne x y xs ys hxy]
        omega
    · by_cases hxy : x = y
      · have hzs : zs.Sublist ys := (List.sublist_cons_self z zs).trans hy'
        have hzx2 : zs.Sublist xs := by
          cases hzx; exact hx'
        have h1 : zs.length ≤ lcsLen xs ys := length_le_lcsLen xs ys zs hzx2 hzs
        subst hxy
        rw [lcsLen_cons_eq]
        simp only [List.length_cons]
        omega
      · have h1 : (z :: zs).length ≤ lcsLen (x :: xs) ys :=
          length_le_lcsLen (x :: xs) ys (z :: zs) hx hy'
        rw [lcsLen_cons_ne x y xs ys hxy]
        omega
    · have hxy : x = y := by
        cases hzx; cases hzy; rfl
      cases hzx
      have hzy2 : zs.Sublist ys := by
        cases hzy; exact hy'
      have h1 : zs.length ≤ lcsLen xs ys := length_le_lcsLen xs ys zs hx' hzy2
      subst hxy
      rw [lcsLen_cons_eq]
      simp only [List.length_cons]
      omega
termination_by xs ys _ => xs.length + ys.length

lemma equalTokens_pushEqual (t : String) (ops : List DiffOp) :
    equalTokens (pushOp .Equal t ops) = t :: equalTokens ops := by
  rw [equalTokens_pushOp]
  simp

lemma equalTokens_pushDelete (t : String) (ops : List DiffOp) :
    equalTokens (pushOp .Delete t ops) = equalTokens ops := by
  rw [equalTokens_pushOp]
  simp

lemma equalTokens_pushInsert (t : String) (ops : List DiffOp) :
    equalTokens (pushOp .Insert t ops) = equalTokens ops := by
  rw [equalTokens_pushOp]
  simp

theorem diff_equal_lcs : ∀ (xs ys : List String),
    List.Sublist (equalTokens (diff xs ys)) xs ∧
      List.Sublist (equalTokens (diff xs ys)) ys ∧
      (equalTokens (diff xs ys)).length = lcsLen xs ys
  | [], [] => by simp [diff, equalTokens, lcsLen]
  | [], y :: ys => by
    have ih := diff_equal_lcs [] ys
    have h0 : equalTokens (diff [] ys) = [] := List.eq_nil_of_sublist_nil ih.1
    simp [diff, equalTokens_pushInsert, h0, lcsLen]
  | x :: xs, [] => by
    have ih := diff_equal_lcs xs []
    have h0 : equalTokens (diff xs []) = [] := List.eq_nil_of_sublist_nil ih.2.1
    simp [diff, equalTokens_pushDelete, h0]
    cases xs <;> simp [lcsLen]
  | x :: xs, y :: ys => by
    by_cases hxy : x = y
    · have ih := diff_equal_lcs xs ys
      subst hxy
      have hD : diff (x :: xs) (x :: ys) = pushOp .Equal x (diff xs ys) := by
        simp [diff]
      rw [hD, lcsLen_cons_eq, equalTokens_pushEqual]
      exact ⟨List.cons_sublist_cons.mpr ih.1, List.cons_sublist_cons.mpr ih.2.1,
        by simp [ih.2.2]⟩
    · by_cases hc : lcsLen (x :: xs) ys ≤ lcsLen xs (y :: ys)
      · have ih := diff_equal_lcs xs (y :: ys)
        have hD : diff (x :: xs) (y :: ys) = pushOp .Delete x (diff xs (y :: ys)) := by
          simp [diff, hxy, hc]
        rw [hD, lcsLen_cons_ne x y xs ys hxy, equalTokens_pushDelete]
        refine ⟨ih.1.trans (List.sublist_cons_self x xs), ih.2.1, ?_⟩
        rw [ih.2.2]
        omega
      · have ih := diff_equal_lcs (x :: xs) ys
        have hD : diff (x :: xs) (y :: ys) = pushOp .Insert y (diff (x :: xs) ys) := by
          simp [diff, hxy, hc]
        rw [hD, lcsLen_cons_ne x y xs ys hxy, equalTokens_pushInsert]
        refine ⟨ih.1, ih.2.1.trans (List.sublist_cons_self y ys), ?_⟩
        rw [ih.2.2]
        omega
termination_by xs ys => xs.length + ys.length

/-- A token sequence is a longest common subsequence of two token sequences. -/
def IsLCS (zs xs ys : List String) : Prop :=
  List.Sublist zs xs ∧ List.Sublist zs ys ∧
    ∀ ws : List String, List.Sublist ws xs → List.Sublist ws ys → ws.length ≤ zs.length

/-- Claim C5: for any pair of token sequences the edit script of `diff` is a
minimal-edit alignment: its `Equal` tokens form a longest common subsequence
of the two inputs; ties between optimal alignments are broken by preferring
`Equal` over `Insert`/`Delete` at the earliest possible position (whenever the
two sequences start with the same token, the script starts with an `Equal`
operation consuming it); and `diff` is a pure function, so two calls on
identical inputs return identical output (spec §4.5). -/
theorem diff_minimal_stable (xs ys : List String) :
    IsLCS (equalTokens (diff xs ys)) xs ys ∧
    (∀ (z : String) (as bs : List String), ∃ toks rest,
        diff (z :: as) (z :: bs) = ⟨DiffKind.Equal, z :: toks⟩ :: rest) ∧
    diff xs ys = diff xs ys := by
  refine ⟨⟨(diff_equal_lcs xs ys).1, (diff_equal_lcs xs ys).2.1, ?_⟩, ?_, rfl⟩
  · intro ws hwx hwy
    have h := length_le_lcsLen xs ys ws hwx hwy
    have h2 := (diff_equal_lcs xs ys).2.2
    omega
  · intro z as bs
    have hd : diff (z :: as) (z :: bs) = pushOp .Equal z (diff as bs) := by
      simp [diff]
    cases hD : diff as bs with
    | nil => exact ⟨[], [], by simp [hd, hD, pushOp]⟩
    | cons op rest =>
      by_cases hk : op.kind = DiffKind.Equal
      · exact ⟨op.tokens, rest, by simp [hd, hD, pushOp, hk]⟩
      · exact ⟨[], op :: rest, by simp [hd, hD, pushOp, hk]⟩

/-! ## Metrics Engine (spec §4.4, §3 MetricsResult) -/

/-- Case-fold a text (spec §4.4: case-insensitive uniqueness comparisons). -/
def lower (s : List Char) : List Char := s.map Char.toLower

/-- Sentence-terminal punctuation (spec §4.4: `.`, `!`, `?`). -/
def isTerminalPunct (c : Char) : Bool := c == '.' || c == '!' || c == '?'

/-- The apostrophe character (spec §4.4: apostrophes within a word retained). -/
def apos : Char := Char.ofNat 39

/-- Modelled from the spec: word tokenization, §4.4 — maximal runs of
alphanumeric characters, an apostrophe retained when it sits between
alphanumeric characters.  The Metrics Engine implementation is missing from
src/.  `cur` is the reversed run currently being scanned. -/
def wordsAux : List Char → List Char → List (List Char)
  | [], cur => if cur.isEmpty then [] else [cur.reverse]
  | c :: cs, cur =>
    if c.isAlphanum then wordsAux cs (c :: cur)
    else if c == apos && !cur.isEmpty && (cs.headD apos).isAlphanum then wordsAux cs (c :: cur)
    else if cur.isEmpty then wordsAux cs [] else cur.reverse :: wordsAux cs []

/-- All word tokens of a text, in order. -/
def wordsOf (text : List Char) : List (List Char) := wordsAux text []

/-- Modelled from the spec: sentence segmentation, §4.4 — split on
sentence-terminal punctuation followed by whitespace or end-of-text.  Runs of
terminal punctuation collapse because only the last character of a run is
followed by whitespace; wordless chunks are discarded by `sentencesOf`.  The
Metrics Engine implementation is missing from src/. -/
def rawChunks : List Char → List Char → List (List Char)
  | [], cur => [cur.reverse]
  | [c], cur => if isTerminalPunct c then [cur.reverse] else [(c :: cur).reverse]
  | c :: d :: cs, cur =>
    if isTerminalPunct c && d.isWhitespace then cur.reverse :: rawChunks (d :: cs) []
    else rawChunks (d :: cs) (c :: cur)

/-- The sentences of a text: chunks containing at least one word token. -/
def sentencesOf (text : List Char) : List (List Char) :=
  (rawChunks text []).filter (fun ch => !(wordsOf ch).isEmpty)

/-- Word count of each sentence, in document order (spec §4.4
`sentenceLengths`). -/
def sentenceLengthsOf (text : List Char) : List Nat :=
  (sentencesOf text).map (fun ch => (wordsOf ch).length)

/-- Vowel test for the syllable heuristic. -/
def isVowel (c : Char) : Bool :=
  let d := c.toLower
  d == 'a' || d == 'e' || d == 'i' || d == 'o' || d == 'u'

/-- Count maximal runs of vowels; the flag records whether the previous
character was a vowel. -/
def vowelGroupsAux : List Char → Bool → Nat
  | [], _ => 0
  | c :: cs, inRun =>
    if isVowel c then (if inRun then 0 else 1) + vowelGroupsAux cs true
    else vowelGroupsAux cs false

/-- Modelled from the spec: syllable counting, §4.4 — vowel-group heuristic,
subtract one for a trailing silent `e`, floor at one syllable per non-empty
word.  The Metrics Engine implementation is missing from src/. -/
def syllablesOf (w : List Char) : Nat :=
  if w.isEmpty then 0
  else
    let g := vowelGroupsAux w false
    max 1 (if w.getLast? == some 'e' || w.getLast? == some 'E' then g - 1 else g)

/-- The sentinel / maximum Flesch Reading Ease score `206.835` (spec §4.4). -/
def flesch206 : ℚ := 206835 / 1000

/-- Modelled from the spec: `readability`, §4.4 — the Flesch formula with the
`206.835` sentinel on zero sentences or zero words. -/
def readabilityOf (text : List Char) : ℚ :=
  let w := (wordsOf text).length
  let s := (sentencesOf text).length
  let syl := ((wordsOf text).map syllablesOf).sum
  if s = 0 ∨ w = 0 then flesch206
  else flesch206 - (1015 / 1000) * ((w : ℚ) / (s : ℚ)) - (846 / 10) * ((syl : ℚ) / (w : ℚ))

/-- Modelled from the spec: `lengthVariance`, §4.4 — population variance of
the sentence lengths, `0` for zero sentences. -/
def lengthVarianceOf (text : List Char) : ℚ :=
  let lens := sentenceLengthsOf text
  if lens.length = 0 then 0
  else
    let mean := ((lens.map (fun k => (k : ℚ))).sum) / (lens.length : ℚ)
    ((lens.map (fun k => ((k : ℚ) - mean) ^ 2)).sum) / (lens.length : ℚ)

/-- Adjacent case-folded word pairs of a text (spec §4.4 adjacent-word-pairs,
README "bigrams"). -/
def bigramsOf (text : List Char) : List (List Char × List Char) :=
  ((wordsOf text).map lower).zip ((wordsOf text).map lower).tail

/-- Modelled from the spec: `repetitionRatio`, §4.4 — distinct adjacent word
pairs over total adjacent word pairs, defined as `1` when there are fewer than
2 words.  Named `repetitionScoreOf` here. -/
def repetitionScoreOf (text : List Char) : ℚ :=
  if (bigramsOf text).length = 0 then 1
  else ((bigramsOf text).dedup.length : ℚ) / ((bigramsOf text).length : ℚ)

/-- The be-verbs of the passive-voice heuristic (spec §4.4). -/
def beVerbs : List (List Char) :=
  ["is", "are", "was", "were", "be", "been", "being", "am"].map String.toList

/-- Past-participle-form heuristic: a (case-folded) word ending in `ed` or
`en` (spec §9 notes this heuristic is implementation-pinned). -/
def isPastPartLike (w : List Char) : Bool :=
  "ed".toList.isSuffixOf w || "en".toList.isSuffixOf w

/-- A be-verb followed within a window of 3 words by a past-participle-form
word (spec §4.4 passive heuristic). -/
def hasPassiveWindow : List (List Char) → Bool
  | [] => false
  | w :: ws => (decide (w ∈ beVerbs) && (ws.take 3).any isPastPartLike) || hasPassiveWindow ws

/-- Modelled from the spec: the passive-sentence test, §4.4. -/
def isPassiveSentence (ch : List Char) : Bool := hasPassiveWindow ((wordsOf ch).map lower)

/-- Modelled from the spec: `passivePct`, §4.4 — `100 ×` passive sentences
over total sentences, `0` for zero sentences. -/
def passivePctOf (text : List Char) : ℚ :=
  if (sentencesOf text).length = 0 then 0
  else 100 * ((((sentencesOf text).filter isPassiveSentence).length : ℚ) /
    ((sentencesOf text).length : ℚ))

/-- Modelled from the spec: `lexicalDiversity`, §4.4 — distinct case-folded
word tokens over total word tokens, `0` for zero tokens. -/
def lexicalDiversityOf (text : List Char) : ℚ :=
  if ((wordsOf text).map lower).length = 0 then 0
  else (((wordsOf text).map lower).dedup.length : ℚ) / (((wordsOf text).map lower).length : ℚ)

/-- Modelled from the spec: `MetricsResult`, §3.  The `repetitionScore` field
models the spec's `repetitionRatio`. -/
structure MetricsResult where
  readability : ℚ
  sentenceLengths : List Nat
  lengthVariance : ℚ
  repetitionScore : ℚ
  passivePct : ℚ
  lexicalDiversity : ℚ
deriving DecidableEq, Repr

/-- Modelled from the spec: the Metrics Engine contract `analyze`, §4.4.  The
implementation is missing from src/. -/
def analyze (text : List Char) : MetricsResult :=
  ⟨readabilityOf text, sentenceLengthsOf text, lengthVarianceOf text,
    repetitionScoreOf text, passivePctOf text, lexicalDiversityOf text⟩

/-! ### Metrics bounds and guards (C6, C7, C8) -/

lemma natCast_div_mem_unit (a b : Nat) (h : a ≤ b) (hb : b ≠ 0) :
    0 ≤ ((a : ℚ) / (b : ℚ)) ∧ ((a : ℚ) / (b : ℚ)) ≤ 1 := by
  have hb' : (0 : ℚ) < (b : ℚ) := by
    exact_mod_cast Nat.pos_of_ne_zero hb
  exact ⟨div_nonneg (Nat.cast_nonneg a) hb'.le, (div_le_one hb').mpr (by exact_mod_cast h)⟩

/-- Claim C6: for every text `t`, `analyze t` has `lexicalDiversity` in `[0, 1]`,
`repetitionScore` (the spec's `repetitionRatio`) in `[0, 1]` and `passivePct`
in `[0, 100]` (spec §3, §8). -/
theorem analyze_bounded (t : List Char) :
    (0 ≤ (analyze t).lexicalDiversity ∧ (analyze t).lexicalDiversity ≤ 1) ∧
    (0 ≤ (analyze t).repetitionScore ∧ (analyze t).repetitionScore ≤ 1) ∧
    (0 ≤ (analyze t).passivePct ∧ (analyze t).passivePct ≤ 100) := by
  refine ⟨?_, ?_, ?_⟩
  · show 0 ≤ lexicalDiversityOf t ∧ lexicalDiversityOf t ≤ 1
    by_cases h : ((wordsOf t).map lower).length = 0
    · simp [lexicalDiversityOf, h]
    · have hb := natCast_div_mem_unit (((wordsOf t).map lower).dedup.length)
        (((wordsOf t).map lower).length) ((List.dedup_sublist _).length_le) h
      unfold lexicalDiversityOf
      rw [if_neg h]
      exact hb
  · show 0 ≤ repetitionScoreOf t ∧ repetitionScoreOf t ≤ 1
    by_cases h : (bigramsOf t).length = 0
    · simp [repetitionScoreOf, h]
    · have hb := natCast_div_mem_unit ((bigramsOf t).dedup.length)
        ((bigramsOf t).length) ((List.dedup_sublist _).length_le) h
      unfold repetitionScoreOf
      rw [if_neg h]
      exact hb
  · show 0 ≤ passivePctOf t ∧ passivePctOf t ≤ 100
    by_cases h : (sentencesOf t).length = 0
    · simp [passivePctOf, h]
    · have hb := natCast_div_mem_unit (((sentencesOf t).filter isPassiveSentence).length)
        ((sentencesOf t).length) (List.length_filter_le _ _) h
      constructor
      · simp only [passivePctOf, if_neg h]
        have := hb.1
        positivity
      · simp only [passivePctOf, if_neg h]
        calc 100 * ((((sentencesOf t).filter isPassiveSentence).length : ℚ) /
              ((sentencesOf t).length : ℚ)) ≤ 100 * 1 :=
            mul_le_mul_of_nonneg_left hb.2 (by norm_num)
          _ = 100 := by norm_num

/-- Claim C7: every division in the Metrics Engine is guarded, so `analyze` is a
total function (it is a Lean `def`, hence total by construction, and no
division-by-zero fault can propagate — division only feeds the guarded
branches): with zero sentences, `readability` is the sentinel `206.835`,
`lengthVariance` is `0` and `passivePct` is `0`; with fewer than 2 word
tokens, `repetitionScore` (the spec's `repetitionRatio`) is `1`; with zero
word tokens, `lexicalDiversity` is `0` (spec §4.4, §8). -/
theorem analyze_division_guards (t : List Char) :
    ((sentencesOf t).length = 0 →
      (analyze t).readability = 206835 / 1000 ∧
      (analyze t).lengthVariance = 0 ∧
      (analyze t).passivePct = 0) ∧
    ((wordsOf t).length < 2 → (analyze t).repetitionScore = 1) ∧
    ((wordsOf t).length = 0 → (analyze t).lexicalDiversity = 0) := by
  refine ⟨fun hs => ⟨?_, ?_, ?_⟩, fun hw => ?_, fun hw => ?_⟩
  · show readabilityOf t = 206835 / 1000
    simp [readabilityOf, hs, flesch206]
  · show lengthVarianceOf t = 0
    have hlen : (sentenceLengthsOf t).length = 0 := by
      simp [sentenceLengthsOf, hs]
    simp [lengthVarianceOf, hlen]
  · show passivePctOf t = 0
    simp [passivePctOf, hs]
  · show repetitionScoreOf t = 1
    have hz : (bigramsOf t).length = 0 := by
      have h1 : ((wordsOf t).map lower).length = (wordsOf t).length := by
        simp
      have h2 : (bigramsOf t).length =
          min ((wordsOf t).length) ((wordsOf t).length - 1) := by
        simp [bigramsOf]
      omega
    simp [repetitionScoreOf, hz]
  · show lexicalDiversityOf t = 0
    have h1 : ((wordsOf t).map lower).length = 0 := by
      simp [hw]
    simp [lexicalDiversityOf, h1]

/-- Closed witness for `analyze_division_guards`, instantiated at the
one-space text, which has zero sentences and zero word tokens. -/
theorem analyze_division_guards_witness :
    (analyze (" ".toList)).readability = 206835 / 1000 ∧
    (analyze (" ".toList)).repetitionScore = 1 ∧
    (analyze (" ".toList)).lexicalDiversity = 0 :=
  ⟨((analyze_division_guards (" ".toList)).1 (by decide)).1,
   (analyze_division_guards (" ".toList)).2.1 (by decide),
   (analyze_division_guards (" ".toList)).2.2 (by decide)⟩

/-- Claim C8: `analyze "The cat sat. The dog ran."` yields `sentenceLengths = [3,3]`
and `lengthVariance = 0` under the specified segmentation and tokenization
(spec §8 scenario). -/
theorem analyze_catdog_scenario :
    (analyze ("The cat sat. The dog ran.".toList)).sentenceLengths = [3, 3] ∧
    (analyze ("The cat sat. The dog ran.".toList)).lengthVariance = 0 := by
  constructor
  · decide
  · show lengthVarianceOf ("The cat sat. The dog ran.".toList) = 0
    have h : sentenceLengthsOf ("The cat sat. The dog ran.".toList) = [3, 3] := by decide
    unfold lengthVarianceOf
    rw [h]
    norm_num

/-! ## Lock Extractor (spec §4.2, §3 ProtectedSpan) -/

/-- Substring occurrence test: `needle` occurs contiguously in `hay` (spec
§4.3 step 4 "confirm its exact text occurs in candidateText"). -/
def occursIn (needle hay : List Char) : Bool :=
  (List.range (hay.length + 1)).any (fun i => needle.isPrefixOf (hay.drop i))

/-- Modelled from the spec: the kind of a protected span, §3
(`kind ∈ \x7bCitation, LockedTerm\x7d`). -/
inductive SpanKind where
  | Citation
  | LockedTerm
deriving DecidableEq, Repr

/-- Modelled from the spec: a protected span, §3 — half-open character
offsets into the original text plus the exact substring.  The spec's `end`
field is named `stop` (`end` is reserved in Lean). -/
structure ProtectedSpan where
  start : Nat
  stop : Nat
  kind : SpanKind
  text : List Char
deriving DecidableEq, Repr

/-- The exact substring of `text` on the half-open range `[a, b)`. -/
def sliceOf (text : List Char) (a b : Nat) : List Char := (text.drop a).take (b - a)

/-- Two spans overlap (share at least one character position). -/
def overlapsB (a b : ProtectedSpan) : Bool :=
  decide (a.start < b.stop ∧ b.start < a.stop)

/-- Two spans are disjoint. -/
def SpanDisjoint (a b : ProtectedSpan) : Prop :=
  a.stop ≤ b.start ∨ b.stop ≤ a.start

/-- Modelled from the spec: left-to-right scan collecting the non-overlapping
occurrences of `term` in the scanned text (spec §4.2 locked-term detection,
"all non-overlapping occurrences are spans, matched left-to-right").  `pos` is
the absolute offset of the scan head.  The Lock Extractor implementation is
missing from src/. -/
def findOccsAux (term : List Char) : List Char → Nat → Nat → List (Nat × Nat)
  | [], _, _ => []
  | c :: cs, pos, minPos =>
    if minPos ≤ pos ∧ term ≠ [] ∧ term.isPrefixOf (c :: cs) = true then
      (pos, pos + term.length) :: findOccsAux term cs (pos + 1) (pos + term.length)
    else
      findOccsAux term cs (pos + 1) minPos

/-- Occurrence spans of one locked term: case-insensitive matching, the span
text taken verbatim from the original text (spec §4.2, §3). -/
def termOccSpans (orig term : List Char) : List ProtectedSpan :=
  (findOccsAux (lower term) (lower orig) 0 0).map
    (fun po => ⟨po.1, po.2, SpanKind.LockedTerm, sliceOf orig po.1 po.2⟩)

/-- Boolean lexicographic order on character lists (canonical tie-break for
term ordering). -/
def lexLE : List Char → List Char → Bool
  | [], _ => true
  | _ :: _, [] => false
  | a :: as, b :: bs => if a < b then true else if b < a then false else lexLE as bs

/-- Longest-term-first total order on terms (spec §4.2 "longest-term-first
when one term is a substring of another, to avoid partial shadowing"), made
total and antisymmetric with a lexicographic tie-break. -/
def termLE (a b : List Char) : Prop :=
  b.length < a.length ∨ (a.length = b.length ∧ lexLE a b = true)

instance : DecidableRel termLE := fun a b => by
  unfold termLE
  infer_instance

/-- Process terms longest-first with a deterministic tie-break. -/
def sortTerms (ts : List (List Char)) : List (List Char) := List.insertionSort termLE ts

/-- Add the occurrences of one term that do not collide with already-accepted
spans (spec §4.2: matching left-to-right, longest-term-first). -/
def addTermSpans (orig : List Char) (acc : List ProtectedSpan) (term : List Char) :
    List ProtectedSpan :=
  acc ++ (termOccSpans orig term).filter (fun o => acc.all (fun a => !overlapsB o a))

/-- Modelled from the spec: locked-term detection over a term list, §4.2.
The implementation is missing from src/. -/
def termSpansOf (orig : List Char) (terms : List (List Char)) : List ProtectedSpan :=
  (sortTerms terms).foldl (addTermSpans orig) []

/-- Length (in characters) of a citation token starting at head character `c`
followed by `cs`, if any: a numeric bracket marker `[digits]`, or a
parenthetical author-year pattern `(...yyyy)` whose content ends in four
digits (spec §4.2 citation detection; the quoted-passage pattern family of
§4.2 is not modelled). -/
def citeHeadLen (c : Char) (cs : List Char) : Option Nat :=
  if c == '[' then
    if (cs.takeWhile Char.isDigit).length ≠ 0 ∧
        ((cs.drop (cs.takeWhile Char.isDigit).length).headD ' ') = ']' then
      some ((cs.takeWhile Char.isDigit).length + 2)
    else none
  else if c == '(' then
    if ((cs.drop ((cs.takeWhile (fun d => !(d == ')') && !(d == '('))).length)).headD ' ') = ')' ∧
        4 ≤ (cs.takeWhile (fun d => !(d == ')') && !(d == '('))).length ∧
        ((cs.takeWhile (fun d => !(d == ')') && !(d == '('))).drop
          ((cs.takeWhile (fun d => !(d == ')') && !(d == '('))).length - 4)).all Char.isDigit then
      some ((cs.takeWhile (fun d => !(d == ')') && !(d == '('))).length + 2)
    else none
  else none

/-- Modelled from the spec: left-to-right citation scan, §4.2.  The
implementation is missing from src/. -/
def citeSpansAux : List Char → Nat → Nat → List (Nat × Nat)
  | [], _, _ => []
  | c :: cs, pos, minPos =>
    match citeHeadLen c cs with
    | some k =>
      if minPos ≤ pos then (pos, pos + k) :: citeSpansAux cs (pos + 1) (pos + k)
      else citeSpansAux cs (pos + 1) minPos
    | none => citeSpansAux cs (pos + 1) minPos

/-- Citation spans of a text, with the exact substring recorded. -/
def citationSpans (orig : List Char) : List ProtectedSpan :=
  (citeSpansAux orig 0 0).map
    (fun po => ⟨po.1, po.2, SpanKind.Citation, sliceOf orig po.1 po.2⟩)

/-- Modelled from the spec: the `\x7blockCitations, keepTerms\x7d` controls
consumed by the Lock Extractor (§4.2). -/
structure LockControls where
  lockCitations : Bool
  keepTerms : List (List Char)

/-- Order on spans by ascending start offset. -/
def startLE (a b : ProtectedSpan) : Prop := a.start ≤ b.start

instance : DecidableRel startLE := fun a b => by
  unfold startLE
  infer_instance

instance : IsTotal ProtectedSpan startLE := ⟨fun a b => Nat.le_total a.start b.start⟩

instance : IsTrans ProtectedSpan startLE := ⟨fun _ _ _ h1 h2 => Nat.le_trans h1 h2⟩

/-- The candidate citation spans used by the extractor: the citation scan
when `lockCitations` is set, none otherwise (spec §4.2). -/
def citesOf (text : List Char) (cfg : LockControls) : List ProtectedSpan :=
  if cfg.lockCitations then citationSpans text else []

/-- Modelled from the spec: the Lock Extractor contract `extract`, §4.2 —
citation spans (when `lockCitations`) plus locked-term spans, de-overlapped
with citation precedence, sorted ascending by start.  The implementation is
missing from src/. -/
def extract (text : List Char) (cfg : LockControls) : List ProtectedSpan :=
  List.insertionSort startLE
    (citesOf text cfg ++
      (termSpansOf text cfg.keepTerms).filter
        (fun t => (citesOf text cfg).all (fun c => !overlapsB t c)))

/-! ### Span invariants of the extractor (C9) -/

lemma citeHeadLen_pos (c : Char) (cs : List Char) (k : Nat) :
    citeHeadLen c cs = some k → 1 ≤ k := by
  unfold citeHeadLen
  split
  · split
    · intro h
      cases h
      omega
    · intro h
      cases h
  · split
    · split
      · intro h
        cases h
        omega
      · intro h
        cases h
    · intro h
      cases h

theorem citeSpansAux_bounds : ∀ (rest : List Char) (pos minPos : Nat),
    (∀ s ∈ citeSpansAux rest pos minPos, pos ≤ s.1 ∧ minPos ≤ s.1 ∧ s.1 < s.2) ∧
      (citeSpansAux rest pos minPos).Pairwise (fun a b => a.2 ≤ b.1)
  | [], pos, minPos => by simp [citeSpansAux]
  | c :: cs, pos, minPos => by
    cases h : citeHeadLen c cs with
    | none =>
      have ih := citeSpansAux_bounds cs (pos + 1) minPos
      rw [citeSpansAux, h]
      exact ⟨fun s hs => ⟨by have := (ih.1 s hs).1; omega, (ih.1 s hs).2⟩, ih.2⟩
    | some k =>
      have hk := citeHeadLen_pos c cs k h
      rw [citeSpansAux, h]
      simp only []
      by_cases hle : minPos ≤ pos
      · have ih := citeSpansAux_bounds cs (pos + 1) (pos + k)
        rw [if_pos hle]
        constructor
        · intro s hs
          rcases List.mem_cons.mp hs with rfl | hs'
          · exact ⟨Nat.le_refl _, hle, by omega⟩
          · have h2 := ih.1 s hs'
            exact ⟨by omega, by omega, h2.2.2⟩
        · refine List.Pairwise.cons ?_ ih.2
          intro b hb
          have := (ih.1 b hb).2.1
          simpa using this
      · have ih := citeSpansAux_bounds cs (pos + 1) minPos
        rw [if_neg hle]
        exact ⟨fun s hs => ⟨by have := (ih.1 s hs).1; omega, (ih.1 s hs).2⟩, ih.2⟩

theorem findOccsAux_bounds (term : List Char) : ∀ (rest : List Char) (pos minPos : Nat),
    (∀ s ∈ findOccsAux term rest pos minPos, pos ≤ s.1 ∧ minPos ≤ s.1 ∧ s.1 < s.2) ∧
      (findOccsAux term rest pos minPos).Pairwise (fun a b => a.2 ≤ b.1)
  | [], pos, minPos => by simp [findOccsAux]
  | c :: cs, pos, minPos => by
    by_cases h : minPos ≤ pos ∧ term ≠ [] ∧ term.isPrefixOf (c :: cs) = true
    · have hlen : 1 ≤ term.length := by
        rcases h with ⟨_, h2, _⟩
        cases term with
        | nil => exact absurd rfl h2
        | cons a as => simp
      have ih := findOccsAux_bounds term cs (pos + 1) (pos + term.length)
      rw [findOccsAux, if_pos h]
      constructor
      · intro s hs
        rcases List.mem_cons.mp hs with rfl | hs'
        · exact ⟨Nat.le_refl _, h.1, by omega⟩
        · have h2 := ih.1 s hs'
          exact ⟨by omega, by omega, h2.2.2⟩
      · refine List.Pairwise.cons ?_ ih.2
        intro b hb
        have := (ih.1 b hb).2.1
        simpa using this
    · have ih := findOccsAux_bounds term cs (pos + 1) minPos
      rw [findOccsAux, if_neg h]
      exact ⟨fun s hs => ⟨by have := (ih.1 s hs).1; omega, (ih.1 s hs).2⟩, ih.2⟩

lemma termOccSpans_pairwise (orig term : List Char) :
    (termOccSpans orig term).Pairwise SpanDisjoint := by
  unfold termOccSpans
  rw [List.pairwise_map]
  exact ((findOccsAux_bounds (lower term) (lower orig) 0 0).2).imp (fun h => Or.inl h)

lemma citationSpans_pairwise (orig : List Char) :
    (citationSpans orig).Pairwise SpanDisjoint := by
  unfold citationSpans
  rw [List.pairwise_map]
  exact ((citeSpansAux_bounds orig 0 0).2).imp (fun h => Or.inl h)

lemma termOccSpans_kind (orig term : List Char) :
    ∀ s ∈ termOccSpans orig term, s.kind = SpanKind.LockedTerm := by
  intro s hs
  rcases List.mem_map.mp hs with ⟨po, _, rfl⟩
  rfl

lemma citationSpans_kind (orig : List Char) :
    ∀ s ∈ citationSpans orig, s.kind = SpanKind.Citation := by
  intro s hs
  rcases List.mem_map.mp hs with ⟨po, _, rfl⟩
  rfl

lemma spanDisjoint_symm {a b : ProtectedSpan} (h : SpanDisjoint a b) : SpanDisjoint b a :=
  h.symm

lemma not_overlapsB_disjoint {a b : ProtectedSpan} (h : overlapsB a b = false) :
    SpanDisjoint a b := by
  unfold overlapsB at h
  rw [decide_eq_false_iff_not] at h
  unfold SpanDisjoint
  omega

lemma addTermSpans_pairwise (orig : List Char) (acc : List ProtectedSpan)
    (term : List Char) (hacc : acc.Pairwise SpanDisjoint) :
    (addTermSpans orig acc term).Pairwise SpanDisjoint := by
  unfold addTermSpans
  rw [List.pairwise_append]
  refine ⟨hacc, List.Pairwise.sublist (List.filter_sublist _) (termOccSpans_pairwise orig term), ?_⟩
  intro a ha b hb
  rcases List.mem_filter.mp hb with ⟨_, hall⟩
  have hba := List.all_eq_true.mp hall a ha
  have : overlapsB b a = false := by
    simpa using hba
  exact spanDisjoint_symm (not_overlapsB_disjoint this)

lemma addTermSpans_kind (orig : List Char) (acc : List ProtectedSpan) (term : List Char)
    (hacc : ∀ s ∈ acc, s.kind = SpanKind.LockedTerm) :
    ∀ s ∈ addTermSpans orig acc term, s.kind = SpanKind.LockedTerm := by
  intro s hs
  rcases List.mem_append.mp hs with h | h
  · exact hacc s h
  · exact termOccSpans_kind orig term s (List.mem_filter.mp h).1

lemma termSpansFold_pairwise (orig : List Char) : ∀ (ts : List (List Char))
    (acc : List ProtectedSpan), acc.Pairwise SpanDisjoint →
    (ts.foldl (addTermSpans orig) acc).Pairwise SpanDisjoint
  | [], acc => fun h => h
  | t :: ts, acc => fun h =>
    termSpansFold_pairwise orig ts (addTermSpans orig acc t)
      (addTermSpans_pairwise orig acc t h)

lemma termSpansFold_kind (orig : List Char) : ∀ (ts : List (List Char))
    (acc : List ProtectedSpan), (∀ s ∈ acc, s.kind = SpanKind.LockedTerm) →
    ∀ s ∈ ts.foldl (addTermSpans orig) acc, s.kind = SpanKind.LockedTerm
  | [], acc => fun h => h
  | t :: ts, acc => fun h =>
    termSpansFold_kind orig ts (addTermSpans orig acc t)
      (addTermSpans_kind orig acc t h)

lemma termSpansOf_pairwise (orig : List Char) (terms : List (List Char)) :
    (termSpansOf orig terms).Pairwise SpanDisjoint :=
  termSpansFold_pairwise orig (sortTerms terms) [] List.Pairwise.nil

lemma termSpansOf_kind (orig : List Char) (terms : List (List Char)) :
    ∀ s ∈ termSpansOf orig terms, s.kind = SpanKind.LockedTerm :=
  termSpansFold_kind orig (sortTerms terms) [] (fun s hs => absurd hs (List.not_mem_nil s))

lemma isPrefixOf_nil_elim (term : List Char) (h : term.isPrefixOf ([] : List Char) = true) :
    term = [] := by
  cases term with
  | nil => rfl
  | cons a as => simp [List.isPrefixOf] at h

lemma findOccsAux_eq_nil (term : List Char) : ∀ (rest : List Char) (pos minPos : Nat),
    (∀ j, term.isPrefixOf (rest.drop j) = false) → findOccsAux term rest pos minPos = []
  | [], _, _ => fun _ => rfl
  | c :: cs, pos, minPos => fun h => by
    have h0 := h 0
    simp only [List.drop_zero] at h0
    rw [findOccsAux, if_neg (by simp [h0])]
    exact findOccsAux_eq_nil term cs (pos + 1) minPos (fun j => by
      have hj := h (j + 1)
      simpa using hj)

lemma findOccsAux_single (term : List Char) (hne : term ≠ []) :
    ∀ (i : Nat) (rest : List Char) (pos minPos : Nat),
      minPos ≤ pos + i →
      term.isPrefixOf (rest.drop i) = true →
      (∀ j, term.isPrefixOf (rest.drop j) = true → j = i) →
      findOccsAux term rest pos minPos = [(pos + i, pos + i + term.length)]
  | 0, rest, pos, minPos => fun hmin hm hu => by
    cases rest with
    | nil => exact absurd (isPrefixOf_nil_elim term (by simpa using hm)) hne
    | cons c cs =>
      have hm2 : term.isPrefixOf (c :: cs) = true := by simpa using hm
      rw [findOccsAux, if_pos ⟨by omega, hne, hm2⟩]
      have htail : findOccsAux term cs (pos + 1) (pos + term.length) = [] := by
        apply findOccsAux_eq_nil
        intro j
        cases hpf : term.isPrefixOf (cs.drop j) with
        | false => rfl
        | true =>
          have hj : term.isPrefixOf ((c :: cs).drop (j + 1)) = true := by simpa using hpf
          have := hu (j + 1) hj
          omega
      rw [htail]
      simp
  | i + 1, rest, pos, minPos => fun hmin hm hu => by
    cases rest with
    | nil => exact absurd (isPrefixOf_nil_elim term (by simpa using hm)) hne
    | cons c cs =>
      have h0 : term.isPrefixOf (c :: cs) = false := by
        cases hpf : term.isPrefixOf (c :: cs) with
        | false => rfl
        | true =>
          have := hu 0 (by simpa using hpf)
          omega
      rw [findOccsAux, if_neg (by simp [h0])]
      have ih := findOccsAux_single term hne i cs (pos + 1) minPos
        (by omega)
        (by simpa using hm)
        (fun j hj => by
          have := hu (j + 1) (by simpa using hj)
          omega)
      rw [show pos + (i + 1) = pos + 1 + i by omega]
      exact ih

lemma lower_length (s : List Char) : (lower s).length = s.length := by
  simp [lower]

lemma termOccSpans_single (orig term : List Char) (hne : term ≠ []) (i : Nat)
    (hm : (lower term).isPrefixOf ((lower orig).drop i) = true)
    (hu : ∀ j, (lower term).isPrefixOf ((lower orig).drop j) = true → j = i) :
    termOccSpans orig term =
      [⟨i, i + term.length, SpanKind.LockedTerm, sliceOf orig i (i + term.length)⟩] := by
  have hne' : lower term ≠ [] := by
    simp [lower, hne]
  unfold termOccSpans
  rw [findOccsAux_single (lower term) hne' i (lower orig) 0 0 (by omega) hm hu]
  simp [lower_length]

lemma citesOf_pairwise (text : List Char) (cfg : LockControls) :
    (citesOf text cfg).Pairwise SpanDisjoint := by
  unfold citesOf
  split
  · exact citationSpans_pairwise text
  · exact List.Pairwise.nil

lemma citesOf_kind (text : List Char) (cfg : LockControls) :
    ∀ c ∈ citesOf text cfg, c.kind = SpanKind.Citation := by
  unfold citesOf
  split
  · exact citationSpans_kind text
  · intro c hc
    exact absurd hc (List.not_mem_nil c)

lemma extract_perm (text : List Char) (cfg : LockControls) :
    List.Perm (extract text cfg)
      (citesOf text cfg ++
        (termSpansOf text cfg.keepTerms).filter
          (fun t => (citesOf text cfg).all (fun c => !overlapsB t c))) :=
  List.perm_insertionSort startLE _

lemma extract_pairwise_disjoint (text : List Char) (cfg : LockControls) :
    (extract text cfg).Pairwise SpanDisjoint := by
  refine ((extract_perm text cfg).pairwise_iff (fun h => spanDisjoint_symm h)).mpr ?_
  rw [List.pairwise_append]
  refine ⟨citesOf_pairwise text cfg,
    List.Pairwise.sublist (List.filter_sublist _) (termSpansOf_pairwise text cfg.keepTerms), ?_⟩
  intro c hc t ht
  rcases List.mem_filter.mp ht with ⟨_, hall⟩
  have htc := List.all_eq_true.mp hall c hc
  have : overlapsB t c = false := by
    simpa using htc
  exact spanDisjoint_symm (not_overlapsB_disjoint this)

lemma extract_sorted (text : List Char) (cfg : LockControls) :
    List.Sorted startLE (extract text cfg) :=
  List.sorted_insertionSort startLE _

/-- Claim C9: for every text and configuration the extractor output is sorted
ascending by `start` and pairwise non-overlapping; citation candidates take
precedence over term candidates at a collision (every citation candidate is
kept and a term span colliding with a citation candidate is dropped); with
`lockCitations = false` and a single `keepTerms` entry occurring exactly once
(case-insensitively) in the text, the output is exactly one `LockedTerm` span
covering that occurrence; with no terms and `lockCitations = false` the output
is empty (spec §3 invariant, §4.2, §8 scenarios). -/
theorem extract_invariant_scenarios (text : List Char) (cfg : LockControls) :
    (List.Sorted startLE (extract text cfg) ∧ (extract text cfg).Pairwise SpanDisjoint) ∧
    (∀ c ∈ citesOf text cfg, c ∈ extract text cfg) ∧
    (∀ t ∈ termSpansOf text cfg.keepTerms, ∀ c ∈ citesOf text cfg,
      overlapsB t c = true → t ∉ extract text cfg) ∧
    (∀ (term : List Char) (i : Nat), cfg = ⟨false, [term]⟩ → term ≠ [] →
      (lower term).isPrefixOf ((lower text).drop i) = true →
      (∀ j, j ≤ (lower text).length →
        (lower term).isPrefixOf ((lower text).drop j) = true → j = i) →
      extract text cfg =
        [⟨i, i + term.length, SpanKind.LockedTerm, sliceOf text i (i + term.length)⟩]) ∧
    (cfg = ⟨false, []⟩ → extract text cfg = []) := by
  refine ⟨⟨extract_sorted text cfg, extract_pairwise_disjoint text cfg⟩, ?_, ?_, ?_, ?_⟩
  · intro c hc
    exact (extract_perm text cfg).mem_iff.mpr (List.mem_append_left _ hc)
  · intro t ht c hc hov hmem
    rcases List.mem_append.mp ((extract_perm text cfg).mem_iff.mp hmem) with hL | hR
    · have h1 := citesOf_kind text cfg t hL
      have h2 := termSpansOf_kind text cfg.keepTerms t ht
      rw [h1] at h2
      cases h2
    · rcases List.mem_filter.mp hR with ⟨_, hall⟩
      have htc := List.all_eq_true.mp hall c hc
      rw [hov] at htc
      simp at htc
  · intro term i hcfg hne hm hu
    subst hcfg
    have hu' : ∀ j, (lower term).isPrefixOf ((lower text).drop j) = true → j = i := by
      intro j hj
      by_cases hjle : j ≤ (lower text).length
      · exact hu j hjle hj
      · exfalso
        rw [List.drop_eq_nil_of_le (by omega)] at hj
        exact absurd (isPrefixOf_nil_elim (lower term) hj) (by simp [lower, hne])
    have hts : termSpansOf text [term] = termOccSpans text term := by
      unfold termSpansOf sortTerms
      simp only [List.insertionSort, List.orderedInsert, List.foldl]
      unfold addTermSpans
      rw [List.filter_eq_self.mpr (fun a _ => by simp)]
      simp
    have hocc := termOccSpans_single text term hne i hm hu'
    unfold extract citesOf
    simp only [hts, hocc]
    rw [List.filter_eq_self.mpr (fun a _ => by simp)]
    simp [List.insertionSort, List.orderedInsert]
  · intro hcfg
    subst hcfg
    rfl

/-- Closed witness for `extract_invariant_scenarios`: the single-occurrence
scenario instantiated at a concrete text and term. -/
theorem extract_invariant_scenarios_witness :
    extract ("A neural network works.".toList) ⟨false, ["neural network".toList]⟩ =
      [⟨2, 16, SpanKind.LockedTerm, "neural network".toList⟩] := by
  have h := (extract_invariant_scenarios ("A neural network works.".toList)
      ⟨false, ["neural network".toList]⟩).2.2.2.1 ("neural network".toList) 2 rfl
      (by decide) (by decide) (by decide)
  rw [h]
  decide

/-! ## Guardrail Classifier and Revision Orchestrator (spec §4.1, §4.3, §6, §7) -/

/-- Modelled from the spec: guardrail reason codes, §3 GuardrailVerdict. -/
inductive ReasonCode where
  | EvadeDetection
  | EvadePlagiarismCheck
  | AcademicDishonesty
  | None
deriving DecidableEq, Repr

/-- Modelled from the spec: a guardrail verdict, §3. -/
structure GuardrailVerdict where
  allowed : Bool
  reasonCode : ReasonCode
deriving DecidableEq, Repr

/-- Modelled from the spec: the Guardrail Classifier `classify`, §4.1 — a
heuristic pattern/keyword detector over the request text and its embedded
instructions; an explicit request to "bypass AI detection" yields
`EvadeDetection`.  The implementation is missing from src/. -/
def classify (text : List Char) : GuardrailVerdict :=
  if occursIn ("bypass ai detection".toList) (lower text) ||
      occursIn ("undetectable".toList) (lower text) then
    ⟨false, ReasonCode.EvadeDetection⟩
  else if occursIn ("evade plagiarism".toList) (lower text) ||
      occursIn ("fool the plagiarism checker".toList) (lower text) then
    ⟨false, ReasonCode.EvadePlagiarismCheck⟩
  else if occursIn ("write my essay for me".toList) (lower text) then
    ⟨false, ReasonCode.AcademicDishonesty⟩
  else
    ⟨true, ReasonCode.None⟩

/-- Modelled from the spec: request controls, §3 RevisionRequest. -/
structure Controls where
  formality : Nat
  concision : Nat
  variation : Nat
  lockCitations : Bool
  keepTerms : List (List Char)

/-- Modelled from the spec: a revision request, §3. -/
structure RevisionRequest where
  originalText : List Char
  controls : Controls

/-- Modelled from the spec: a revision result, §3 — produced only from a
valid attempt. -/
structure RevisionResult where
  revisedText : List Char
  notes : List (List Char)
  summary : List Char
deriving DecidableEq, Repr

/-- Modelled from the spec: the outcome taxonomy of `revise`, §4.3 and §7. -/
inductive ReviseOutcome where
  | result (r : RevisionResult)
  | guardrailDenied (rc : ReasonCode)
  | revisionFailed (lastViolations : List ProtectedSpan)
  | providerError
deriving DecidableEq, Repr

/-- The lock controls carried by a request. -/
def lockCfgOf (req : RevisionRequest) : LockControls :=
  ⟨req.controls.lockCitations, req.controls.keepTerms⟩

/-- The protected spans of a request (spec §4.3 step 2). -/
def extractOf (req : RevisionRequest) : List ProtectedSpan :=
  extract req.originalText (lockCfgOf req)

/-- Modelled from the spec: the rewrite directive, §4.3 step 3 — encodes the
controls and restates the literal protected substrings, with the violating
spans of the previous attempt appended as the strengthened part. -/
def mkDirective (c : Controls) (spans viols : List ProtectedSpan) : List Char :=
  [Char.ofNat (48 + c.formality % 10), Char.ofNat (48 + c.concision % 10),
    Char.ofNat (48 + c.variation % 10)] ++
    ((spans ++ viols).map (fun s => s.text)).foldl (fun acc t => acc ++ t) []

/-- Integer-scaled sentence-length-variance signal (`n·Σx² − (Σx)²`, which is
`n²` times the population variance), used for the qualitative notes. -/
def varSignal (text : List Char) : Nat :=
  (sentenceLengthsOf text).length * ((sentenceLengthsOf text).map (fun k => k * k)).sum -
    (sentenceLengthsOf text).sum * (sentenceLengthsOf text).sum

/-- Number of passive sentences of a text. -/
def passiveCountOf (text : List Char) : Nat :=
  ((sentencesOf text).filter isPassiveSentence).length

/-- Modelled from the spec: derive `notes` from qualitative signals of the
Metrics Engine (spec §4.3 step 6 — e.g. sentence-length variance increased,
passive-voice percentage decreased). -/
def mkNotes (orig cand : List Char) : List (List Char) :=
  (if varSignal orig < varSignal cand then
    ["Varied sentence structure for better flow".toList] else []) ++
  (if passiveCountOf cand * (sentencesOf orig).length <
      passiveCountOf orig * (sentencesOf cand).length then
    ["Reduced passive voice".toList] else []) ++
  ["Preserved citations and locked terms".toList]

/-- The one-line summary of a result (spec §4.3 step 6). -/
def mkSummary : List Char := "Improved readability while preserving meaning".toList

/-- The fixed bound on rewriting attempts (spec §4.3 step 5: 3 attempts
total). -/
def maxAttempts : Nat := 3

/-- The violations of a candidate: the protected spans whose exact text is
absent from it (spec §4.3 step 4, §3 RevisionAttempt). -/
def violsOf (spans : List ProtectedSpan) (cand : List Char) : List ProtectedSpan :=
  spans.filter (fun s => !occursIn s.text cand)

/-- Modelled from the spec: the Orchestrator retry loop, §4.3 steps 3–6 and
§9 — an explicit loop with a bounded iteration count.  The provider is the
opaque rewriting capability, indexed by the number of calls already made (it
is non-deterministic across sequential calls) and given the directive;
`none` models `ProviderError`.  A candidate is accepted only when it carries
no violations and the classifier re-applied to it allows it
(defense-in-depth, §4.1); otherwise the loop retries with a strengthened
directive, and after the bound returns `RevisionFailed` with the last
violations (or surfaces `ProviderError`).  The implementation is missing from
src/. -/
def attemptLoop (provider : Nat → List Char → Option (List Char)) (req : RevisionRequest)
    (spans : List ProtectedSpan) : Nat → Nat → List ProtectedSpan → ReviseOutcome × Nat
  | calls, 0, lastV => (ReviseOutcome.revisionFailed lastV, calls)
  | calls, rem + 1, lastV =>
    match provider calls (mkDirective req.controls spans lastV) with
    | none =>
      if rem = 0 then (ReviseOutcome.providerError, calls + 1)
      else attemptLoop provider req spans (calls + 1) rem lastV
    | some cand =>
      if (violsOf spans cand).isEmpty && (classify cand).allowed then
        (ReviseOutcome.result ⟨cand, mkNotes req.originalText cand, mkSummary⟩, calls + 1)
      else if rem = 0 then
        (ReviseOutcome.revisionFailed (violsOf spans cand), calls + 1)
      else
        attemptLoop provider req spans (calls + 1) rem (violsOf spans cand)

/-- Modelled from the spec: the Revision Orchestrator contract `revise`,
§4.3 — gate through the classifier (deny short-circuits before any provider
call), extract locks, then run the bounded retry loop.  The second component
is the number of provider calls made.  The implementation is missing from
src/. -/
def revise (provider : Nat → List Char → Option (List Char)) (req : RevisionRequest) :
    ReviseOutcome × Nat :=
  if (classify req.originalText).allowed then
    attemptLoop provider req (extractOf req) 0 maxAttempts []
  else
    (ReviseOutcome.guardrailDenied (classify req.originalText).reasonCode, 0)

/-- The fixed refusal string of the API surface (spec §6, README §Guardrails). -/
def refusalText : List Char :=
  "Not supported. This app improves clarity and style while preserving meaning and citations.".toList

/-- Modelled from the spec: the shape of `POST /revise` responses, §6 — a
result, the fixed-string error payload on guardrail denial, or a 5xx. -/
inductive ApiResponse where
  | ok (r : RevisionResult)
  | errorMsg (msg : List Char)
  | serverError
deriving DecidableEq, Repr

/-- Modelled from the spec: the `POST /revise` API surface, §6.  The
implementation is missing from src/. -/
def reviseApi (provider : Nat → List Char → Option (List Char)) (req : RevisionRequest) :
    ApiResponse × Nat :=
  match revise provider req with
  | (ReviseOutcome.result r, n) => (ApiResponse.ok r, n)
  | (ReviseOutcome.guardrailDenied _, n) => (ApiResponse.errorMsg refusalText, n)
  | (ReviseOutcome.revisionFailed _, n) => (ApiResponse.serverError, n)
  | (ReviseOutcome.providerError, n) => (ApiResponse.serverError, n)

/-! ### Orchestrator properties (C1, C2, C3) -/

lemma bool_of_not_not {b : Bool} (h : ¬ ((!b) = true)) : b = true := by
  cases b
  · simp at h
  · rfl

lemma attemptLoop_result_spans (provider : Nat → List Char → Option (List Char))
    (req : RevisionRequest) (spans : List ProtectedSpan) :
    ∀ (rem calls : Nat) (lastV : List ProtectedSpan) (r : RevisionResult) (n : Nat),
      attemptLoop provider req spans calls rem lastV = (ReviseOutcome.result r, n) →
      ∀ s ∈ spans, occursIn s.text r.revisedText = true := by
  intro rem
  induction rem with
  | zero =>
    intro calls lastV r n h
    simp [attemptLoop] at h
  | succ rem ih =>
    intro calls lastV r n h
    rw [attemptLoop] at h
    cases hp : provider calls (mkDirective req.controls spans lastV) with
    | none =>
      rw [hp] at h
      simp only [] at h
      by_cases hrem : rem = 0
      · rw [if_pos hrem] at h
        simp at h
      · rw [if_neg hrem] at h
        exact ih (calls + 1) lastV r n h
    | some cand =>
      rw [hp] at h
      simp only [] at h
      by_cases hok : ((violsOf spans cand).isEmpty && (classify cand).allowed) = true
      · rw [if_pos hok] at h
        injection h with h1 h2
        injection h1 with h3
        have hempty : violsOf spans cand = [] := by
          rcases Bool.and_eq_true_iff.mp hok with ⟨h4, _⟩
          exact List.isEmpty_iff.mp h4
        intro s hs
        have h5 := List.filter_eq_nil_iff.mp hempty s hs
        have h6 : occursIn s.text cand = true := bool_of_not_not h5
        rw [← h3]
        exact h6
      · rw [if_neg hok] at h
        by_cases hrem : rem = 0
        · rw [if_pos hrem] at h
          simp at h
        · rw [if_neg hrem] at h
          exact ih (calls + 1) (violsOf spans cand) r n h

/-- Claim C1: whenever `revise` returns a `RevisionResult`, the exact text of every
protected span extracted from the request's original text under its controls
occurs as a substring of `revisedText` (spec §8 lock invariant, §4.3 steps
4–5). -/
theorem revise_lock_invariant (provider : Nat → List Char → Option (List Char))
    (req : RevisionRequest) (r : RevisionResult) (n : Nat)
    (h : revise provider req = (ReviseOutcome.result r, n)) :
    ∀ s ∈ extractOf req, occursIn s.text r.revisedText = true := by
  unfold revise at h
  by_cases hc : (classify req.originalText).allowed = true
  · rw [if_pos hc] at h
    exact attemptLoop_result_spans provider req (extractOf req) maxAttempts 0 [] r n h
  · rw [if_neg hc] at h
    simp at h

/-- Closed witness for `revise_lock_invariant`: a concrete request whose
citation marker survives in the accepted candidate. -/
theorem revise_lock_invariant_witness :
    occursIn ("[1]".toList) ("See [1] on neural network.".toList) = true := by
  have h := revise_lock_invariant
    (fun _ _ => some ("See [1] on neural network.".toList))
    ⟨"See [1] on neural network.".toList, ⟨1, 1, 1, true, ["neural network".toList]⟩⟩
    ⟨"See [1] on neural network.".toList,
      mkNotes ("See [1] on neural network.".toList) ("See [1] on neural network.".toList),
      mkSummary⟩ 1 (by decide)
  exact h ⟨4, 7, SpanKind.Citation, "[1]".toList⟩ (by decide)

/-- Claim C2: on any request the classifier denies, `revise` short-circuits with
`GuardrailDenied` carrying the verdict's reason code and zero provider calls
(the rewriting capability is never invoked), and the API surface returns the
fixed refusal string; in particular a request whose text contains an explicit
"bypass AI detection" instruction is classified `EvadeDetection` and handled
exactly so (spec §4.1, §6, §8 guardrail invariant). -/
theorem guardrail_denial_short_circuit (provider : Nat → List Char → Option (List Char))
    (req : RevisionRequest) :
    ((classify req.originalText).allowed = false →
      revise provider req =
        (ReviseOutcome.guardrailDenied (classify req.originalText).reasonCode, 0) ∧
      reviseApi provider req = (ApiResponse.errorMsg refusalText, 0)) ∧
    (occursIn ("bypass ai detection".toList) (lower req.originalText) = true →
      classify req.originalText = ⟨false, ReasonCode.EvadeDetection⟩ ∧
      revise provider req = (ReviseOutcome.guardrailDenied ReasonCode.EvadeDetection, 0) ∧
      reviseApi provider req = (ApiResponse.errorMsg refusalText, 0)) := by
  have key : (classify req.originalText).allowed = false →
      revise provider req =
        (ReviseOutcome.guardrailDenied (classify req.originalText).reasonCode, 0) ∧
      reviseApi provider req = (ApiResponse.errorMsg refusalText, 0) := by
    intro hfalse
    have hrev : revise provider req =
        (ReviseOutcome.guardrailDenied (classify req.originalText).reasonCode, 0) := by
      unfold revise
      rw [if_neg (by simp [hfalse])]
    refine ⟨hrev, ?_⟩
    unfold reviseApi
    rw [hrev]
  refine ⟨key, fun hbypass => ?_⟩
  have hclassify : classify req.originalText = ⟨false, ReasonCode.EvadeDetection⟩ := by
    unfold classify
    rw [if_pos (by rw [Bool.or_eq_true]; exact Or.inl hbypass)]
  have hfalse : (classify req.originalText).allowed = false := by
    rw [hclassify]
  have hk := key hfalse
  refine ⟨hclassify, ?_, hk.2⟩
  rw [hk.1, hclassify]

/-- Closed witness for `guardrail_denial_short_circuit`: a concrete request
containing an explicit "bypass AI detection" instruction. -/
theorem guardrail_denial_short_circuit_witness :
    revise (fun _ _ => none)
        ⟨"Please bypass AI detection for me.".toList, ⟨0, 0, 0, false, []⟩⟩ =
      (ReviseOutcome.guardrailDenied ReasonCode.EvadeDetection, 0) ∧
    reviseApi (fun _ _ => none)
        ⟨"Please bypass AI detection for me.".toList, ⟨0, 0, 0, false, []⟩⟩ =
      (ApiResponse.errorMsg refusalText, 0) := by
  have h := (guardrail_denial_short_circuit (fun _ _ => none)
    ⟨"Please bypass AI detection for me.".toList, ⟨0, 0, 0, false, []⟩⟩).2 (by decide)
  exact ⟨h.2.1, h.2.2⟩

lemma attemptLoop_calls_le (provider : Nat → List Char → Option (List Char))
    (req : RevisionRequest) (spans : List ProtectedSpan) :
    ∀ (rem calls : Nat) (lastV : List ProtectedSpan),
      (attemptLoop provider req spans calls rem lastV).2 ≤ calls + rem := by
  intro rem
  induction rem with
  | zero =>
    intro calls lastV
    simp [attemptLoop]
  | succ rem ih =>
    intro calls lastV
    rw [attemptLoop]
    cases hp : provider calls (mkDirective req.controls spans lastV) with
    | none =>
      simp only []
      by_cases h : rem = 0
      · rw [if_pos h]
        show calls + 1 ≤ calls + (rem + 1)
        omega
      · rw [if_neg h]
        have := ih (calls + 1) lastV
        omega
    | some cand =>
      simp only []
      by_cases h : ((violsOf spans cand).isEmpty && (classify cand).allowed) = true
      · rw [if_pos h]
        show calls + 1 ≤ calls + (rem + 1)
        omega
      · rw [if_neg h]
        by_cases h0 : rem = 0
        · rw [if_pos h0]
          show calls + 1 ≤ calls + (rem + 1)
          omega
        · rw [if_neg h0]
          have := ih (calls + 1) (violsOf spans cand)
          omega

/-- Claim C3: the Orchestrator makes at most 3 provider calls per request (and, as
a Lean function, always terminates); and in the scenario where the provider
returns a violating candidate on attempts 1 and 2 and a satisfying,
classifier-clean candidate on attempt 3, `revise` returns a valid
`RevisionResult` built from the third candidate having made exactly 3
provider calls (spec §4.3 step 5, §8 scenario, §9). -/
theorem orchestrator_bound_and_scenario (provider : Nat → List Char → Option (List Char))
    (req : RevisionRequest) :
    (revise provider req).2 ≤ 3 ∧
    (∀ c0 c1 c2 : List Char,
      (classify req.originalText).allowed = true →
      provider 0 (mkDirective req.controls (extractOf req) []) = some c0 →
      (violsOf (extractOf req) c0).isEmpty = false →
      provider 1 (mkDirective req.controls (extractOf req) (violsOf (extractOf req) c0)) =
        some c1 →
      (violsOf (extractOf req) c1).isEmpty = false →
      provider 2 (mkDirective req.controls (extractOf req) (violsOf (extractOf req) c1)) =
        some c2 →
      (violsOf (extractOf req) c2).isEmpty = true →
      (classify c2).allowed = true →
      revise provider req =
        (ReviseOutcome.result ⟨c2, mkNotes req.originalText c2, mkSummary⟩, 3)) := by
  constructor
  · unfold revise
    by_cases h : (classify req.originalText).allowed = true
    · rw [if_pos h]
      have := attemptLoop_calls_le provider req (extractOf req) maxAttempts 0 []
      simpa [maxAttempts] using this
    · rw [if_neg h]
      show (0 : Nat) ≤ 3
      omega
  · intro c0 c1 c2 hallow hp0 hv0 hp1 hv1 hp2 hv2 hc2
    unfold revise
    rw [if_pos hallow]
    show attemptLoop provider req (extractOf req) 0 (2 + 1) [] = _
    rw [attemptLoop, hp0]
    simp only []
    rw [if_neg (by simp [hv0])]
    rw [if_neg (by norm_num)]
    show attemptLoop provider req (extractOf req) 1 (1 + 1) (violsOf (extractOf req) c0) = _
    rw [attemptLoop, hp1]
    simp only []
    rw [if_neg (by simp [hv1])]
    rw [if_neg (by norm_num)]
    show attemptLoop provider req (extractOf req) 2 (0 + 1) (violsOf (extractOf req) c1) = _
    rw [attemptLoop, hp2]
    simp only []
    rw [if_pos (by simp [hv2, hc2])]

/-- Closed witness for `orchestrator_bound_and_scenario`: a provider that
violates the locked citation on attempts 1 and 2 and satisfies it on attempt
3; exactly 3 calls are made. -/
theorem orchestrator_bound_and_scenario_witness :
    revise
        (fun k _ => if k = 0 then some ("bad one".toList)
          else if k = 1 then some ("bad two".toList)
          else some ("Keep [1] here fine.".toList))
        ⟨"Keep [1] here.".toList, ⟨0, 0, 0, true, []⟩⟩ =
      (ReviseOutcome.result ⟨"Keep [1] here fine.".toList,
        mkNotes ("Keep [1] here.".toList) ("Keep [1] here fine.".toList), mkSummary⟩, 3) :=
  (orchestrator_bound_and_scenario _ _).2 ("bad one".toList) ("bad two".toList)
    ("Keep [1] here fine.".toList) (by decide) (by decide) (by decide) (by decide)
    (by decide) (by decide) (by decide) (by decide)

/-! ## Inbound payload: keepTermsCsv (C10; README `POST /revise` schema) -/

/-- Modelled from the spec and README: the `controls` object of the inbound
`POST /revise` payload.  Per src/README.md the locked terms arrive as the
single comma-separated string field `keepTermsCsv`, not as a set-valued
field. -/
structure ControlsPayload where
  formality : Nat
  concision : Nat
  variation : Nat
  lockCitations : Bool
  keepTermsCsv : List Char

/-- Modelled from the README: the inbound `POST /revise` payload
(`original_text` plus `controls`). -/
structure RevisePayload where
  originalText : List Char
  controls : ControlsPayload

/-- Split a comma-separated string into its entries. -/
def splitCsvAux : List Char → List Char → List (List Char)
  | [], cur => [cur.reverse]
  | c :: cs, cur =>
    if c == ',' then cur.reverse :: splitCsvAux cs [] else splitCsvAux cs (c :: cur)

/-- All comma-separated entries of a string. -/
def splitCsv (s : List Char) : List (List Char) := splitCsvAux s []

/-- Modelled from the spec: derive the case-insensitive, deduplicated
`keepTerms` set (§3 RevisionRequest) from the `keepTermsCsv` payload field;
empty entries are discarded.  The implementation is missing from src/. -/
def keepTermsOfCsv (csv : List Char) : List (List Char) :=
  (((splitCsv csv).map lower).filter (fun t => !t.isEmpty)).dedup

/-- Modelled from the spec and README: convert an inbound payload to the
core's `RevisionRequest`. -/
def toRequest (p : RevisePayload) : RevisionRequest :=
  ⟨p.originalText,
    ⟨p.controls.formality, p.controls.concision, p.controls.variation,
      p.controls.lockCitations, keepTermsOfCsv p.controls.keepTermsCsv⟩⟩

lemma lexLE_total : ∀ a b : List Char, lexLE a b = true ∨ lexLE b a = true
  | [], _ => Or.inl rfl
  | _ :: _, [] => Or.inr rfl
  | a :: as, b :: bs => by
    rcases lt_trichotomy a b with h | h | h
    · left
      simp [lexLE, h]
    · subst h
      rcases lexLE_total as bs with ih | ih
      · left
        simpa [lexLE] using ih
      · right
        simpa [lexLE] using ih
    · right
      simp [lexLE, h]

lemma lexLE_antisymm : ∀ a b : List Char, lexLE a b = true → lexLE b a = true → a = b
  | [], [] => fun _ _ => rfl
  | [], _ :: _ => fun _ h2 => by simp [lexLE] at h2
  | _ :: _, [] => fun h1 _ => by simp [lexLE] at h1
  | a :: as, b :: bs => fun h1 h2 => by
    rcases lt_trichotomy a b with h | h | h
    · exfalso
      simp [lexLE, h, lt_asymm h] at h2
    · subst h
      simp only [lexLE, lt_irrefl, if_neg (lt_irrefl a)] at h1 h2
      rw [lexLE_antisymm as bs h1 h2]
    · exfalso
      simp [lexLE, h, lt_asymm h] at h1

lemma lexLE_trans : ∀ a b c : List Char,
    lexLE a b = true → lexLE b c = true → lexLE a c = true
  | [], _, _ => fun _ _ => rfl
  | _ :: _, [], _ => fun h1 _ => by simp [lexLE] at h1
  | _ :: _, _ :: _, [] => fun _ h2 => by simp [lexLE] at h2
  | a :: as, b :: bs, c :: cs => fun h1 h2 => by
    rcases lt_trichotomy a b with hab | hab | hab
    · rcases lt_trichotomy b c with hbc | hbc | hbc
      · simp [lexLE, lt_trans hab hbc]
      · subst hbc
        simp [lexLE, hab]
      · exfalso
        simp [lexLE, hbc, lt_asymm hbc] at h2
    · subst hab
      rcases lt_trichotomy a c with hbc | hbc | hbc
      · simp [lexLE, hbc]
      · subst hbc
        simp only [lexLE, lt_irrefl, if_neg (lt_irrefl a)] at h1 h2 ⊢
        exact lexLE_trans as bs cs h1 h2
      · exfalso
        simp [lexLE, hbc, lt_asymm hbc] at h2
    · exfalso
      simp [lexLE, hab, lt_asymm hab] at h1

instance : IsTotal (List Char) termLE :=
  ⟨fun a b => by
    unfold termLE
    rcases Nat.lt_trichotomy a.length b.length with h | h | h
    · right
      left
      exact h
    · rcases lexLE_total a b with hl | hl
      · left
        right
        exact ⟨h, hl⟩
      · right
        right
        exact ⟨h.symm, hl⟩
    · left
      left
      exact h⟩

instance : IsTrans (List Char) termLE :=
  ⟨fun a b c h1 h2 => by
    unfold termLE at h1 h2 ⊢
    rcases h1 with h1 | ⟨e1, l1⟩ <;> rcases h2 with h2 | ⟨e2, l2⟩
    · left
      omega
    · left
      omega
    · left
      omega
    · right
      exact ⟨by omega, lexLE_trans a b c l1 l2⟩⟩

instance : IsAntisymm (List Char) termLE :=
  ⟨fun a b h1 h2 => by
    unfold termLE at h1 h2
    rcases h1 with h1 | ⟨e1, l1⟩ <;> rcases h2 with h2 | ⟨e2, l2⟩
    · omega
    · omega
    · omega
    · exact lexLE_antisymm a b l1 l2⟩

lemma sortTerms_eq_of_perm {l1 l2 : List (List Char)} (h : List.Perm l1 l2) :
    sortTerms l1 = sortTerms l2 :=
  List.eq_of_perm_of_sorted
    (((List.perm_insertionSort termLE l1).trans h).trans
      (List.perm_insertionSort termLE l2).symm)
    (List.sorted_insertionSort termLE l1) (List.sorted_insertionSort termLE l2)

/-- Claim C10: the inbound `POST /revise` payload carries locked terms as the
comma-separated string field `keepTermsCsv` (README schema; the payload type
`ControlsPayload` has no set-valued field), the core derives the
case-insensitive deduplicated `keepTerms` set from it via `keepTermsOfCsv`,
and any two payloads whose `keepTermsCsv` differ only in term order, letter
case or duplicate entries — i.e. whose derived sets are permutations of one
another — produce the same protected spans for the same text. -/
theorem keepTermsCsv_canonical (p1 p2 : RevisePayload)
    (htext : p1.originalText = p2.originalText)
    (hlock : p1.controls.lockCitations = p2.controls.lockCitations)
    (hperm : List.Perm (keepTermsOfCsv p1.controls.keepTermsCsv)
      (keepTermsOfCsv p2.controls.keepTermsCsv)) :
    extractOf (toRequest p1) = extractOf (toRequest p2) := by
  have hterms : termSpansOf p2.originalText (keepTermsOfCsv p1.controls.keepTermsCsv) =
      termSpansOf p2.originalText (keepTermsOfCsv p2.controls.keepTermsCsv) := by
    unfold termSpansOf
    rw [sortTerms_eq_of_perm hperm]
  show extract (toRequest p1).originalText (lockCfgOf (toRequest p1)) =
    extract (toRequest p2).originalText (lockCfgOf (toRequest p2))
  unfold toRequest lockCfgOf
  simp only [htext, hlock]
  unfold extract citesOf
  simp only [hterms]

/-- Closed witness for `keepTermsCsv_canonical`: two payloads whose
`keepTermsCsv` differ in order, case and duplicates yield identical
protected spans. -/
theorem keepTermsCsv_canonical_witness :
    extractOf (toRequest ⟨"On neural network basics.".toList,
        ⟨0, 0, 0, false, "Neural Network,basics".toList⟩⟩) =
      extractOf (toRequest ⟨"On neural network basics.".toList,
        ⟨0, 0, 0, false, "BASICS,neural network,basics".toList⟩⟩) :=
  keepTermsCsv_canonical
    ⟨"On neural network basics.".toList, ⟨0, 0, 0, false, "Neural Network,basics".toList⟩⟩
    ⟨"On neural network basics.".toList,
      ⟨0, 0, 0, false, "BASICS,neural network,basics".toList⟩⟩
    rfl rfl (by decide)

/-- Closed witness for `diff_minimal_stable` at concrete token sequences. -/
theorem diff_minimal_stable_witness :
    IsLCS (equalTokens (diff ["a", "b", "c"] ["b", "c", "d"])) ["a", "b", "c"] ["b", "c", "d"] :=
  (diff_minimal_stable ["a", "b", "c"] ["b", "c", "d"]).1
